import Mathlib

/-!
Verification of the embedding and semantic-retrieval engine of
`python-services/services/embedding_service.py` (class `EmbeddingService`).

Shallow embedding conventions:
* vector entries are modelled as `ℚ` where the claims are structural
  (cache logic, filtering, sorting, counting model invocations) and as `ℝ`
  where genuine square roots occur (cosine similarity, statistics);
* the Redis client is modelled as an association list together with an
  `available` flag; a client call with `available = false` raises, which the
  shallow embedding renders as `Except.error ()` (the Python `except` blocks
  that `raise` propagate this error, the ones that return a default absorb it);
* the sentence-transformer model is an opaque deterministic function
  `encode : String → List ℚ`; its batch entry point is elementwise
  application, and batch invocations are logged so that call-count claims
  become statements about the log;
* the md5 hex digest of `_get_cache_key` is an opaque function parameter
  `md5hex : String → String` (hashlib is an external library; the cache-key
  claims only use that it is a function, hence deterministic).
-/

namespace MindMesh

/-- TTL constant from `EmbeddingService.__init__` (`self.cache_ttl = 86400`). -/
def cache_ttl : ℕ := 86400

/-- Model of the Redis cache reachable through `self.redis_client`:
an association list of `key ↦ embedding` (the JSON round-trip of
`json.dumps`/`json.loads` is the identity on the stored list) plus an
`available` flag modelling connectivity.  Expiry is not modelled: entries in
the list stand for unexpired entries. -/
structure Cache where
  entries : List (String × List ℚ)
  available : Bool
deriving DecidableEq

/-- First-match lookup in the association list, the model of `redis.get`
returning a value or `None`. -/
def lookupKey (entries : List (String × List ℚ)) (k : String) : Option (List ℚ) :=
  (entries.find? (fun p => p.1 == k)).map (fun p => p.2)

/-- `self.redis_client.get key`: returns the cached value when the store is
reachable, raises (modelled as `Except.error ()`) on connectivity loss. -/
def redis_get (c : Cache) (key : String) : Except Unit (Option (List ℚ)) :=
  if c.available then .ok (lookupKey c.entries key) else .error ()

/-- `self.redis_client.setex key ttl value`: prepends the entry (the first
match wins on lookup, so this is an overwrite), raises on connectivity
loss.  The ttl argument is carried for fidelity but expiry is not modelled. -/
def redis_setex (c : Cache) (key : String) (ttl : ℕ) (value : List ℚ) : Except Unit Cache :=
  if c.available then .ok ⟨(key, value) :: c.entries, c.available⟩ else .error ()

/-- `EmbeddingService._get_cache_key`: `"embedding:" + md5(text).hexdigest()`.
The digest is the opaque parameter `md5hex`. -/
def get_cache_key (md5hex : String → String) (text : String) : String :=
  "embedding:" ++ md5hex text

/-- `EmbeddingService.generate_embedding` (lines 27-52): look the text up in
the cache, on a hit return the cached list, on a miss encode, write back with
`cache_ttl` and return.  The surrounding `try/except` logs and then
`raise`s, so any cache failure propagates as `Except.error ()`.  The third
component of the result counts invocations of `self.model.encode` during the
call (0 on a hit, 1 on a miss), the instrumentation needed to state the
call-count claims. -/
def generate_embedding (md5hex : String → String) (encode : String → List ℚ)
    (c : Cache) (text : String) : Except Unit (List ℚ × Cache × ℕ) := do
  let cache_key := get_cache_key md5hex text
  let cached ← redis_get c cache_key
  match cached with
  | some v => pure (v, c, 0)
  | none =>
      let embedding := encode text
      let c2 ← redis_setex c cache_key cache_ttl embedding
      pure (embedding, c2, 1)

theorem lookupKey_insert_self (es : List (String × List ℚ)) (k : String) (v : List ℚ) :
    lookupKey ((k, v) :: es) k = some v := by
  simp [lookupKey, List.find?]

/-- C1 (amended): a cache-store failure during `generate_embedding` is caught
by the `except` block, logged, and re-raised: the call fails with the error
instead of degrading to compute-without-cache.  (The original claim asserted
fail-open degradation; the counterexample below refutes it.) -/
theorem generate_embedding_cache_failure_raises (md5hex : String → String)
    (encode : String → List ℚ) (c : Cache) (text : String)
    (h : c.available = false) :
    generate_embedding md5hex encode c text = .error () := by
  simp [generate_embedding, redis_get, h, Bind.bind, Except.bind]

/-- C1 witness: concrete instantiation of the amended theorem on an
unavailable cache. -/
theorem generate_embedding_cache_failure_raises_witness :
    (Cache.mk [] false).available = false ∧
      generate_embedding (fun s => s) (fun _ => [1]) (Cache.mk [] false) "hello" =
        .error () :=
  ⟨rfl, generate_embedding_cache_failure_raises (fun s => s) (fun _ => [1])
    (Cache.mk [] false) "hello" rfl⟩

/-- C1 counterexample: with the cache store down, `generate_embedding` does
not return a computed embedding at all — it returns the raised error, so the
claimed fail-open degradation (`still returns a computed embedding`) is false
at this concrete input. -/
theorem generate_embedding_cache_failure_cex :
    generate_embedding (fun s => s) (fun _ => [1]) (Cache.mk [] false) "hello" =
      .error () := rfl

/-- C7: after a successful `generate_embedding` on a working cache, a second
call with the same text hits the entry written by the first call (the cache
key is a function of the text, hence deterministic), performs no new model
invocation (count 0), and returns the same vector and cache state. -/
theorem generate_embedding_cache_idempotent (md5hex : String → String)
    (encode : String → List ℚ) (c : Cache) (text : String)
    (v : List ℚ) (c2 : Cache) (n : ℕ)
    (h : generate_embedding md5hex encode c text = .ok (v, c2, n)) :
    generate_embedding md5hex encode c2 text = .ok (v, c2, 0) := by
  by_cases hav : c.available
  · rcases hlook : lookupKey c.entries (get_cache_key md5hex text) with _ | w
    · simp [generate_embedding, redis_get, redis_setex, hav, hlook, Bind.bind,
        Except.bind, pure, Except.pure] at h
      obtain ⟨rfl, rfl, rfl⟩ := h
      simp [generate_embedding, redis_get, redis_setex, Bind.bind, Except.bind,
        pure, Except.pure, lookupKey_insert_self]
    · simp [generate_embedding, redis_get, hav, hlook, Bind.bind, Except.bind,
        pure, Except.pure] at h
      obtain ⟨rfl, rfl, rfl⟩ := h
      simp [generate_embedding, redis_get, hav, hlook, Bind.bind, Except.bind,
        pure, Except.pure]
  · simp [generate_embedding, redis_get, hav, Bind.bind, Except.bind] at h

/-- C7 witness: a concrete first call (miss, one model invocation) followed by
the second call resolved by the theorem. -/
theorem generate_embedding_cache_idempotent_witness :
    generate_embedding (fun s => s) (fun _ => [1]) (Cache.mk [] true) "t" =
      .ok ([1], Cache.mk [(get_cache_key (fun s => s) "t", [1])] true, 1) ∧
    generate_embedding (fun s => s) (fun _ => [1])
        (Cache.mk [(get_cache_key (fun s => s) "t", [1])] true) "t" =
      .ok ([1], Cache.mk [(get_cache_key (fun s => s) "t", [1])] true, 0) :=
  ⟨rfl, generate_embedding_cache_idempotent (fun s => s) (fun _ => [1])
    (Cache.mk [] true) "t" [1]
    (Cache.mk [(get_cache_key (fun s => s) "t", [1])] true) 1 rfl⟩

/-- Cache-scanning phase of `generate_embeddings_batch` (lines 61-71): for the
`i`-th text onwards, perform `redis_get` per text, collecting the per-slot
result (`embeddings.append(...)`/`append(None)`), the uncached texts and their
indices in original order.  A Redis failure propagates (the enclosing
`except` re-raises). -/
def scan_cache (md5hex : String → String) (c : Cache) :
    ℕ → List String → Except Unit (List (Option (List ℚ)) × List String × List ℕ)
  | _, [] => .ok ([], [], [])
  | i, t :: ts => do
    let cached ← redis_get c (get_cache_key md5hex t)
    let (slots, uts, uis) ← scan_cache md5hex c (i + 1) ts
    match cached with
    | some v => pure (some v :: slots, uts, uis)
    | none => pure (none :: slots, t :: uts, i :: uis)

/-- Pure value of `scan_cache` on an available cache. -/
def scan_pure (md5hex : String → String) (c : Cache) :
    ℕ → List String → List (Option (List ℚ)) × List String × List ℕ
  | _, [] => ([], [], [])
  | i, t :: ts =>
    let (slots, uts, uis) := scan_pure md5hex c (i + 1) ts
    match lookupKey c.entries (get_cache_key md5hex t) with
    | some v => (some v :: slots, uts, uis)
    | none => (none :: slots, t :: uts, i :: uis)

/-- The slot-assignment part of the write-back loop (line 80,
`embeddings[idx] = embedding_list` folded over `zip(uncached_indices,
new_embeddings)`). -/
def fillSlots (slots : List (Option (List ℚ))) (upds : List (ℕ × List ℚ)) :
    List (Option (List ℚ)) :=
  upds.foldl (fun s p => s.set p.1 (some p.2)) slots

/-- Write-back loop of `generate_embeddings_batch` (lines 77-88): for each
`(idx, embedding)` pair, fill the result slot and `setex` the cache under the
key of `texts[idx]`.  A Redis failure propagates. -/
def write_back (md5hex : String → String) (texts : List String) :
    Cache → List (Option (List ℚ)) → List (ℕ × List ℚ) →
      Except Unit (List (Option (List ℚ)) × Cache)
  | c, slots, [] => .ok (slots, c)
  | c, slots, (idx, emb) :: rest => do
    let slots2 := slots.set idx (some emb)
    let c2 ← redis_setex c (get_cache_key md5hex (texts.getD idx "")) cache_ttl emb
    write_back md5hex texts c2 slots2 rest

/-- `EmbeddingService.generate_embeddings_batch` (lines 54-94): scan the cache
for every text, then — only if some text missed — invoke the model's batch
inference once on the uncached sublist (`self.model.encode(uncached_texts)`,
modelled as elementwise `encode`) and write each new vector into its slot and
into the cache.  The third component of the result is the log of model batch
invocations (the argument list of each `self.model.encode` call), the
instrumentation needed for the call-count claim. -/
def generate_embeddings_batch (md5hex : String → String) (encode : String → List ℚ)
    (c : Cache) (texts : List String) :
    Except Unit (List (Option (List ℚ)) × Cache × List (List String)) := do
  let (embeddings, uncached_texts, uncached_indices) ← scan_cache md5hex c 0 texts
  if uncached_texts.isEmpty then
    pure (embeddings, c, [])
  else
    let new_embeddings := uncached_texts.map encode
    let (filled, c2) ←
      write_back md5hex texts c embeddings (uncached_indices.zip new_embeddings)
    pure (filled, c2, [uncached_texts])

theorem scan_cache_ok (md5hex : String → String) (c : Cache)
    (hav : c.available = true) :
    ∀ (i : ℕ) (ts : List String),
      scan_cache md5hex c i ts = .ok (scan_pure md5hex c i ts)
  | _, [] => rfl
  | i, t :: ts => by
    have ih := scan_cache_ok md5hex c hav (i + 1) ts
    rcases hlook : lookupKey c.entries (get_cache_key md5hex t) with _ | v <;>
      simp [scan_cache, scan_pure, redis_get, hav, hlook, ih, Bind.bind,
        Except.bind, pure, Except.pure]

theorem scan_pure_slots (md5hex : String → String) (c : Cache) :
    ∀ (i : ℕ) (ts : List String),
      (scan_pure md5hex c i ts).1 =
        ts.map (fun t => lookupKey c.entries (get_cache_key md5hex t))
  | _, [] => rfl
  | i, t :: ts => by
    have ih := scan_pure_slots md5hex c (i + 1) ts
    rcases hlook : lookupKey c.entries (get_cache_key md5hex t) with _ | v <;>
      simp [scan_pure, hlook, ih]

theorem scan_pure_uncached (md5hex : String → String) (c : Cache) :
    ∀ (i : ℕ) (ts : List String),
      (scan_pure md5hex c i ts).2.1 =
        ts.filter (fun t => (lookupKey c.entries (get_cache_key md5hex t)).isNone)
  | _, [] => rfl
  | i, t :: ts => by
    have ih := scan_pure_uncached md5hex c (i + 1) ts
    rcases hlook : lookupKey c.entries (get_cache_key md5hex t) with _ | v <;>
      simp [scan_pure, hlook, ih, List.filter]

theorem scan_pure_indices_ge (md5hex : String → String) (c : Cache) :
    ∀ (i : ℕ) (ts : List String) (j : ℕ),
      j ∈ (scan_pure md5hex c i ts).2.2 → i ≤ j
  | i, [], j => by simp [scan_pure]
  | i, t :: ts, j => by
    have ih := scan_pure_indices_ge md5hex c (i + 1) ts j
    rcases hlook : lookupKey c.entries (get_cache_key md5hex t) with _ | v <;>
      simp [scan_pure, hlook] <;> intro hmem
    · rcases hmem with rfl | hmem
      · exact le_refl j
      · exact Nat.le_of_succ_le (ih hmem)
    · exact Nat.le_of_succ_le (ih hmem)

theorem fillSlots_cons_ge (a : Option (List ℚ)) :
    ∀ (upds : List (ℕ × List ℚ)) (l : List (Option (List ℚ))),
      (∀ p ∈ upds, 1 ≤ p.1) →
      fillSlots (a :: l) upds =
        a :: fillSlots l (upds.map (fun p => (p.1 - 1, p.2)))
  | [], l, _ => rfl
  | (n, e) :: us, l, h => by
    obtain ⟨m, rfl⟩ : ∃ m, n = m + 1 := by
      have h1 := h (n, e) (by simp)
      exact ⟨n - 1, by omega⟩
    have ih := fillSlots_cons_ge a us (l.set m (some e))
      (fun p hp => h p (by simp [hp]))
    simp only [fillSlots, List.foldl_cons, List.map_cons] at ih ⊢
    simpa [List.set] using ih

theorem map_sub_one_zip {α : Type} :
    ∀ (l : List ℕ) (m : List α),
      ((l.zip m).map (fun p => (p.1 - 1, p.2)) : List (ℕ × α)) =
        (l.map (fun x => x - 1)).zip m
  | [], _ => by simp
  | _ :: _, [] => by simp
  | a :: l, b :: m => by
    simp only [List.zip_cons_cons, List.map_cons]
    rw [map_sub_one_zip l m]

theorem fill_scan (md5hex : String → String) (encode : String → List ℚ) (c : Cache) :
    ∀ (ts : List String) (i : ℕ),
      fillSlots (scan_pure md5hex c i ts).1
          (((scan_pure md5hex c i ts).2.2.map (fun j => j - i)).zip
            ((scan_pure md5hex c i ts).2.1.map encode)) =
        ts.map (fun t =>
          some ((lookupKey c.entries (get_cache_key md5hex t)).getD (encode t)))
  | [], i => rfl
  | t :: ts, i => by
    have ih := fill_scan md5hex encode c ts (i + 1)
    have hge := scan_pure_indices_ge md5hex c (i + 1) ts
    rcases hlook : lookupKey c.entries (get_cache_key md5hex t) with _ | v
    · -- cache miss: the head update hits slot 0, the rest shift by one
      simp only [scan_pure, hlook, List.map_cons, Nat.sub_self, List.zip_cons_cons]
      have hstep : fillSlots (none :: (scan_pure md5hex c (i + 1) ts).1)
          ((0, encode t) ::
            (((scan_pure md5hex c (i + 1) ts).2.2.map (fun j => j - i)).zip
              ((scan_pure md5hex c (i + 1) ts).2.1.map encode))) =
          fillSlots (some (encode t) :: (scan_pure md5hex c (i + 1) ts).1)
            (((scan_pure md5hex c (i + 1) ts).2.2.map (fun j => j - i)).zip
              ((scan_pure md5hex c (i + 1) ts).2.1.map encode)) := by
        simp [fillSlots, List.set]
      rw [hstep, fillSlots_cons_ge _ _ _ ?hge1]
      case hge1 =>
        intro p hp
        have hmem := (List.of_mem_zip hp).1
        obtain ⟨j, hj, hji⟩ := List.mem_map.mp hmem
        have := hge j hj
        omega
      rw [map_sub_one_zip, List.map_map]
      have hcomp :
          ((fun x => x - 1) ∘ fun j => j - i) = fun j => j - (i + 1) := by
        funext j; simp only [Function.comp]; omega
      rw [hcomp, ih]
      simp
    · -- cache hit: the head slot is already filled, all updates shift by one
      simp only [scan_pure, hlook, List.map_cons]
      rw [fillSlots_cons_ge _ _ _ ?hge2]
      case hge2 =>
        intro p hp
        have hmem := (List.of_mem_zip hp).1
        obtain ⟨j, hj, hji⟩ := List.mem_map.mp hmem
        have := hge j hj
        omega
      rw [map_sub_one_zip, List.map_map]
      have hcomp :
          ((fun x => x - 1) ∘ fun j => j - i) = fun j => j - (i + 1) := by
        funext j; simp only [Function.comp]; omega
      rw [hcomp, ih]
      simp

theorem write_back_ok (md5hex : String → String) (texts : List String) :
    ∀ (upds : List (ℕ × List ℚ)) (c : Cache) (slots : List (Option (List ℚ))),
      c.available = true →
      ∃ c2, write_back md5hex texts c slots upds = .ok (fillSlots slots upds, c2) ∧
        c2.available = true
  | [], c, slots, hav => ⟨c, rfl, hav⟩
  | (idx, emb) :: rest, c, slots, hav => by
    have hset : redis_setex c (get_cache_key md5hex (texts.getD idx "")) cache_ttl emb =
        .ok ⟨(get_cache_key md5hex (texts.getD idx ""), emb) :: c.entries, c.available⟩ := by
      simp [redis_setex, hav]
    obtain ⟨c2, hrun, hav2⟩ := write_back_ok md5hex texts rest
      ⟨(get_cache_key md5hex (texts.getD idx ""), emb) :: c.entries, c.available⟩
      (slots.set idx (some emb)) (by simpa using hav)
    refine ⟨c2, ?_, hav2⟩
    simp only [write_back, Bind.bind, Except.bind, hset]
    simpa [fillSlots] using hrun

theorem batch_run (md5hex : String → String) (encode : String → List ℚ)
    (c : Cache) (texts : List String) (hav : c.available = true) :
    ∃ c2, generate_embeddings_batch md5hex encode c texts =
      .ok (texts.map (fun t =>
            some ((lookupKey c.entries (get_cache_key md5hex t)).getD (encode t))),
          c2,
          if texts.filter
              (fun t => (lookupKey c.entries (get_cache_key md5hex t)).isNone) = []
          then ([] : List (List String))
          else [texts.filter
              (fun t => (lookupKey c.entries (get_cache_key md5hex t)).isNone)]) := by
  have hscan := scan_cache_ok md5hex c hav 0 texts
  rcases hS : scan_pure md5hex c 0 texts with ⟨slots, uts, uis⟩
  rw [hS] at hscan
  have hslots : slots =
      texts.map (fun t => lookupKey c.entries (get_cache_key md5hex t)) := by
    have h1 := scan_pure_slots md5hex c 0 texts
    rw [hS] at h1; exact h1
  have huts : uts = texts.filter
      (fun t => (lookupKey c.entries (get_cache_key md5hex t)).isNone) := by
    have h1 := scan_pure_uncached md5hex c 0 texts
    rw [hS] at h1; exact h1
  by_cases hempty : uts = []
  · refine ⟨c, ?_⟩
    have hall : ∀ t ∈ texts,
        lookupKey c.entries (get_cache_key md5hex t) ≠ none := by
      intro t ht
      have h2 := List.filter_eq_nil_iff.mp (huts ▸ hempty) t ht
      simpa using h2
    have hmap : texts.map (fun t =>
        some ((lookupKey c.entries (get_cache_key md5hex t)).getD (encode t))) =
        texts.map (fun t => lookupKey c.entries (get_cache_key md5hex t)) := by
      refine List.map_congr_left ?_
      intro t ht
      rcases hl : lookupKey c.entries (get_cache_key md5hex t) with _ | w
      · exact absurd hl (hall t ht)
      · simp
    simp only [generate_embeddings_batch, hscan, Bind.bind, Except.bind, hempty,
      List.isEmpty_nil, if_true, pure, Except.pure, hmap, ← huts, hempty, ← hslots]
  · obtain ⟨c2, hwb, hav2⟩ := write_back_ok md5hex texts
      (uis.zip (uts.map encode)) c slots hav
    refine ⟨c2, ?_⟩
    have hfill := fill_scan md5hex encode c texts 0
    rw [hS] at hfill
    simp only [Nat.sub_zero] at hfill
    rw [List.map_id'] at hfill
    have hne : uts.isEmpty = false := by
      cases uts with
      | nil => exact absurd rfl hempty
      | cons a l => rfl
    simp only [generate_embeddings_batch, hscan, Bind.bind, Except.bind, hne,
      Bool.false_eq_true, if_false, hwb, pure, Except.pure, hfill, ← huts, hempty]

/-- C4: on a working cache, `generate_embeddings_batch` invokes the model's
batch inference exactly once, on exactly the sublist of texts that missed the
cache in their original relative order (`texts.filter` of the miss
predicate), and not at all when every text is a cache hit.  The model-call
log of the run (third component) is `[missSublist]` when some text misses,
and `[]` when none does — in particular never one entry per text. -/
theorem generate_embeddings_batch_single_model_call (md5hex : String → String)
    (encode : String → List ℚ) (c : Cache) (texts : List String)
    (hav : c.available = true) :
    ∃ out c2, generate_embeddings_batch md5hex encode c texts =
      .ok (out, c2,
        if texts.filter
            (fun t => (lookupKey c.entries (get_cache_key md5hex t)).isNone) = []
        then ([] : List (List String))
        else [texts.filter
            (fun t => (lookupKey c.entries (get_cache_key md5hex t)).isNone)]) :=
  let ⟨c2, h⟩ := batch_run md5hex encode c texts hav
  ⟨_, c2, h⟩

/-- C4 witness: one cached text (`"a"`) and one uncached text (`"b"`); the
model-call log is the single batch call on the missing sublist `["b"]`. -/
theorem generate_embeddings_batch_single_model_call_witness :
    (Cache.mk [(get_cache_key (fun s => s) "a", [2])] true).available = true ∧
    ∃ out c2, generate_embeddings_batch (fun s => s) (fun _ => [1])
        (Cache.mk [(get_cache_key (fun s => s) "a", [2])] true) ["a", "b"] =
      .ok (out, c2, [["b"]]) := by
  refine ⟨rfl, ?_⟩
  obtain ⟨out, c2, h⟩ := generate_embeddings_batch_single_model_call
    (fun s => s) (fun _ => [1])
    (Cache.mk [(get_cache_key (fun s => s) "a", [2])] true) ["a", "b"] rfl
  refine ⟨out, c2, ?_⟩
  have hfilter : (["a", "b"].filter (fun t =>
      (lookupKey [(get_cache_key (fun s => s) "a", [2])]
        (get_cache_key (fun s => s) t)).isNone)) = ["b"] := by decide
  rw [hfilter] at h
  simpa using h

/-- C5: on a working cache, `generate_embeddings_batch` returns a fully
resolved list of the same length as the input, whose `i`-th entry is `some`
of the embedding of the `i`-th text — the cached value on a hit, the freshly
computed value on a miss; no slot is left `none` (unfilled) and no entry is
dropped. -/
theorem generate_embeddings_batch_fully_resolved (md5hex : String → String)
    (encode : String → List ℚ) (c : Cache) (texts : List String)
    (hav : c.available = true) :
    ∃ c2 calls, generate_embeddings_batch md5hex encode c texts =
      .ok (texts.map (fun t =>
            some ((lookupKey c.entries (get_cache_key md5hex t)).getD (encode t))),
          c2, calls) :=
  let ⟨c2, h⟩ := batch_run md5hex encode c texts hav
  ⟨c2, _, h⟩

/-- C5 witness: a hit (`"a"`, cached as `[2]`) and a miss (`"b"`, computed as
`[1]`): the output has one filled slot per input, in input order. -/
theorem generate_embeddings_batch_fully_resolved_witness :
    (Cache.mk [(get_cache_key (fun s => s) "a", [2])] true).available = true ∧
    ∃ c2 calls, generate_embeddings_batch (fun s => s) (fun _ => [1])
        (Cache.mk [(get_cache_key (fun s => s) "a", [2])] true) ["a", "b"] =
      .ok ([some [2], some [1]], c2, calls) := by
  refine ⟨rfl, ?_⟩
  obtain ⟨c2, calls, h⟩ := generate_embeddings_batch_fully_resolved
    (fun s => s) (fun _ => [1])
    (Cache.mk [(get_cache_key (fun s => s) "a", [2])] true) ["a", "b"] rfl
  refine ⟨c2, calls, ?_⟩
  have hmap : (["a", "b"].map (fun t =>
      some ((lookupKey [(get_cache_key (fun s => s) "a", [2])]
        (get_cache_key (fun s => s) t)).getD ((fun _ => ([1] : List ℚ)) t)))) =
      [some [2], some [1]] := by decide
  rw [hmap] at h
  exact h

/-- Modelled from numpy's documented `argsort` contract (numpy is an
external library): the returned index list is a permutation of `0..len-1`
along which the values are ascending.  Stability on ties is deliberately
NOT part of the contract — the default `kind` is an introsort, documented
as not stable, so a program may observe any tie order. -/
def ArgsortSpec (vs : List ℚ) (idxs : List ℕ) : Prop :=
  List.Perm idxs (List.range vs.length) ∧
    idxs.Pairwise (fun i j => vs.getD i 0 ≤ vs.getD j 0)

/-- Index comparison (value ascending, ties by smaller index first) used by
the concrete conforming `argsort` implementation below. -/
def argsortRel (vs : List ℚ) (i j : ℕ) : Prop :=
  vs.getD i 0 < vs.getD j 0 ∨ (vs.getD i 0 = vs.getD j 0 ∧ i ≤ j)

instance (vs : List ℚ) : DecidableRel (argsortRel vs) := fun i j =>
  inferInstanceAs (Decidable (_ ∨ _))

/-- One concrete implementation satisfying `ArgsortSpec` (a stable ascending
sort), used to instantiate closed statements.  It is also numpy's actual
behavior on the short inputs of those statements, since introsort dispatches
short segments to a stable insertion sort; for longer tied segments numpy
may produce a different conforming permutation, which is why the theorems
quantify over every conforming implementation instead of fixing this one. -/
def argsort (vs : List ℚ) : List ℕ :=
  List.insertionSort (argsortRel vs) (List.range vs.length)

instance (vs : List ℚ) : IsTotal ℕ (argsortRel vs) where
  total i j := by
    rcases lt_trichotomy (vs.getD i 0) (vs.getD j 0) with h | h | h
    · exact Or.inl (Or.inl h)
    · rcases Nat.le_total i j with hij | hij
      · exact Or.inl (Or.inr ⟨h, hij⟩)
      · exact Or.inr (Or.inr ⟨h.symm, hij⟩)
    · exact Or.inr (Or.inl h)

instance (vs : List ℚ) : IsTrans ℕ (argsortRel vs) where
  trans i j k hij hjk := by
    rcases hij with h1 | ⟨h1, hij⟩ <;> rcases hjk with h2 | ⟨h2, hjk⟩
    · exact Or.inl (h1.trans h2)
    · exact Or.inl (h2 ▸ h1)
    · exact Or.inl (h1 ▸ h2)
    · exact Or.inr ⟨h1.trans h2, hij.trans hjk⟩

theorem argsort_isArgsort : ∀ vs : List ℚ, ArgsortSpec vs (argsort vs) := by
  intro vs
  refine ⟨List.perm_insertionSort _ _, ?_⟩
  have hs : List.Sorted (argsortRel vs) (argsort vs) :=
    List.sorted_insertionSort _ _
  refine List.Pairwise.imp ?_ hs
  intro a b hab
  rcases hab with h | ⟨h, _⟩
  · exact le_of_lt h
  · exact le_of_eq h

/-- Filter-sort-truncate pipeline of `find_similar_embeddings` (lines
123-132), taken at the level of the cosine-similarity row `similarities`
computed at line 120 (the claims about this function fix the candidate
similarities directly; the similarity kernel itself is `calculate_similarity`
below): `np.where(similarities >= threshold)` gives `valid_indices`,
`similarities[valid_indices]` gives `valid_similarities`,
`np_argsort(...)[::-1][:top_k]` selects and orders, and the result pairs are
`(valid_indices[idx], valid_similarities[idx])`.  `np.argsort` is an
external numpy routine and is passed as the function parameter `np_argsort`,
constrained in the theorems only by its documented contract `ArgsortSpec`
(sorted ascending, stability not guaranteed). -/
def find_similar_from_scores (np_argsort : List ℚ → List ℕ)
    (similarities : List ℚ) (top_k : ℕ) (threshold : ℚ) : List (ℕ × ℚ) :=
  let valid_indices :=
    (List.range similarities.length).filter (fun i => threshold ≤ similarities.getD i 0)
  let valid_similarities := valid_indices.map (fun i => similarities.getD i 0)
  let sorted_indices := ((np_argsort valid_similarities).reverse).take top_k
  sorted_indices.map (fun idx => (valid_indices.getD idx 0, valid_similarities.getD idx 0))

/-- Ordering on `(index, score)` pairs claimed by the spec: score descending,
ties by ascending original index. -/
def scoreDescIdxAsc (p q : ℕ × ℚ) : Prop :=
  q.2 < p.2 ∨ (p.2 = q.2 ∧ p.1 ≤ q.1)

instance : DecidableRel scoreDescIdxAsc := fun p q =>
  inferInstanceAs (Decidable (_ ∨ _))

/-- Reference form of the top-k contract as the claim states it (ties by
ascending original index), used only to refute the tie-order part of the
claim. -/
def topKAscTies (similarities : List ℚ) (k : ℕ) (threshold : ℚ) : List (ℕ × ℚ) :=
  ((similarities.enum.filter (fun p => threshold ≤ p.2)).insertionSort
    scoreDescIdxAsc).take k

/-- C2 counterexample: two candidates tied at score `1` with threshold `0`
and `k = 2`.  On a two-element array numpy's introsort runs its stable
insertion-sort path, so the stable conforming implementation `argsort` is
the faithful behavior for this input: the code returns `[(1, 1), (0, 1)]` —
ties ordered by descending index — while the claim demands ascending-index
tie order `[(0, 1), (1, 1)]`. -/
theorem find_similar_tie_order_cex :
    find_similar_from_scores argsort [1, 1] 2 0 = [(1, 1), (0, 1)] ∧
      topKAscTies [1, 1] 2 0 = [(0, 1), (1, 1)] ∧
      find_similar_from_scores argsort [1, 1] 2 0 ≠ topKAscTies [1, 1] 2 0 := by
  refine ⟨by decide, by decide, by decide⟩

theorem enum_filter_pairs (sims : List ℚ) (threshold : ℚ) :
    sims.enum.filter (fun p => threshold ≤ p.2) =
      ((List.range sims.length).filter (fun i => threshold ≤ sims.getD i 0)).map
        (fun i => (i, sims.getD i 0)) := by
  have henum : sims.enum =
      (List.range sims.length).map (fun i => (i, sims.getD i 0)) := by
    apply List.ext_getElem
    · simp
    · intro n h1 h2
      have hn : n < sims.length := by simpa using h1
      simp only [List.getElem_enum, List.getElem_map, List.getElem_range]
      rw [List.getD_eq_getElem _ _ hn]
  rw [henum, List.filter_map]
  rfl

theorem range_map_pairs (g : ℕ → ℚ) (vi : List ℕ) :
    (List.range vi.length).map
        (fun idx => (vi.getD idx 0, (vi.map g).getD idx 0)) =
      vi.map (fun i => (i, g i)) := by
  apply List.ext_getElem
  · simp
  · intro n h1 h2
    have hn : n < vi.length := by simpa using h1
    simp only [List.getElem_map, List.getElem_range]
    rw [List.getD_eq_getElem _ _ hn, List.getD_eq_getElem _ _ (by simpa using hn)]
    simp

theorem perm_range_two (l : List ℕ) (h : List.Perm l (List.range 2)) :
    l = [0, 1] ∨ l = [1, 0] := by
  have hlen : l.length = 2 := by simpa using h.length_eq
  rcases l with _ | ⟨x, _ | ⟨y, _ | ⟨z, t⟩⟩⟩
  · simp at hlen
  · simp at hlen
  · have hx : x < 2 := List.mem_range.mp (h.mem_iff.mp (by simp))
    have hy : y < 2 := List.mem_range.mp (h.mem_iff.mp (by simp))
    have hnd : ([x, y] : List ℕ).Nodup := h.nodup_iff.mpr (List.nodup_range 2)
    have hxy : x ≠ y := by simpa using hnd
    have hcases : (x = 0 ∧ y = 1) ∨ (x = 1 ∧ y = 0) := by omega
    rcases hcases with ⟨rfl, rfl⟩ | ⟨rfl, rfl⟩
    · exact Or.inl rfl
    · exact Or.inr rfl
  · simp at hlen

theorem ranked_props (g : ℕ → ℚ) (vi : List ℕ) (idxs : List ℕ)
    (hperm : List.Perm idxs (List.range (vi.map g).length))
    (hsort : idxs.Pairwise
      (fun i j => (vi.map g).getD i 0 ≤ (vi.map g).getD j 0)) :
    List.Perm
        (idxs.reverse.map (fun idx => (vi.getD idx 0, (vi.map g).getD idx 0)))
        (vi.map (fun i => (i, g i))) ∧
      (idxs.reverse.map
        (fun idx => (vi.getD idx 0, (vi.map g).getD idx 0))).Pairwise
          (fun p q => q.2 ≤ p.2) := by
  constructor
  · have h1 := ((idxs.reverse_perm).trans hperm).map
      (fun idx => (vi.getD idx 0, (vi.map g).getD idx 0))
    rwa [List.length_map, range_map_pairs] at h1
  · rw [List.pairwise_map]
    have hrev : idxs.reverse.Pairwise
        (fun i j => (vi.map g).getD j 0 ≤ (vi.map g).getD i 0) :=
      List.pairwise_reverse.mpr hsort
    exact List.Pairwise.imp (fun h => h) hrev

/-- C2 (amended): for every `np.argsort` implementation satisfying numpy's
documented contract (`ArgsortSpec`: a sorted permutation of the indices,
stability on ties NOT guaranteed), `find_similar_embeddings` returns a
truncation to at most `k` entries of a ranking that consists of exactly the
`(index, score)` pairs whose score is at or above the threshold (as a
permutation — the order among tied scores is whatever the unstable sort
produced and is not guaranteed in either direction), with scores
non-increasing along the output; on the spec's tie-free concrete example
`[0.9, 0.3, 0.95, 0.1]`, threshold `0.5`, `k = 2`, every conforming
implementation yields exactly `[(2, 0.95), (0, 0.9)]`.  The original
claim's ascending tie order is refuted by `find_similar_tie_order_cex`. -/
theorem find_similar_topk_characterization (np_argsort : List ℚ → List ℕ)
    (hasort : ∀ vs, ArgsortSpec vs (np_argsort vs)) (sims : List ℚ) (k : ℕ)
    (threshold : ℚ) :
    (∃ ranked : List (ℕ × ℚ),
        find_similar_from_scores np_argsort sims k threshold = ranked.take k ∧
        List.Perm ranked (sims.enum.filter (fun p => threshold ≤ p.2)) ∧
        ranked.Pairwise (fun p q => q.2 ≤ p.2)) ∧
      find_similar_from_scores np_argsort [9/10, 3/10, 19/20, 1/10] 2 (1/2) =
        [(2, 19/20), (0, 9/10)] := by
  constructor
  · obtain ⟨hperm, hsort⟩ := hasort
      (((List.range sims.length).filter
        (fun i => threshold ≤ sims.getD i 0)).map (fun i => sims.getD i 0))
    obtain ⟨hp, hs⟩ := ranked_props (fun i => sims.getD i 0)
      ((List.range sims.length).filter (fun i => threshold ≤ sims.getD i 0))
      (np_argsort (((List.range sims.length).filter
        (fun i => threshold ≤ sims.getD i 0)).map (fun i => sims.getD i 0)))
      hperm hsort
    refine ⟨((np_argsort (((List.range sims.length).filter
        (fun i => threshold ≤ sims.getD i 0)).map
          (fun i => sims.getD i 0))).reverse).map
        (fun idx => (((List.range sims.length).filter
          (fun i => threshold ≤ sims.getD i 0)).getD idx 0,
          (((List.range sims.length).filter
            (fun i => threshold ≤ sims.getD i 0)).map
              (fun i => sims.getD i 0)).getD idx 0)), ?_, ?_, ?_⟩
    · simp only [find_similar_from_scores, List.map_take]
    · rw [enum_filter_pairs]
      exact hp
    · exact hs
  · have hvi : (List.range ([9/10, 3/10, 19/20, 1/10] : List ℚ).length).filter
        (fun i => (1/2 : ℚ) ≤ ([9/10, 3/10, 19/20, 1/10] : List ℚ).getD i 0) =
          [0, 2] := by
      norm_num [List.range_succ]
    have hvs : ([0, 2] : List ℕ).map
        (fun i => ([9/10, 3/10, 19/20, 1/10] : List ℚ).getD i 0) =
          [9/10, 19/20] := by
      norm_num
    obtain ⟨hperm, hsort⟩ := hasort [9/10, 19/20]
    have hp2 : List.Perm (np_argsort [9/10, 19/20]) (List.range 2) := hperm
    simp only [find_similar_from_scores]
    rw [hvi, hvs]
    rcases perm_range_two _ hp2 with h | h
    · rw [h]
      norm_num
    · exfalso
      rw [h] at hsort
      have h2 := (List.pairwise_cons.mp hsort).1 0 (by simp)
      norm_num at h2

/-- C2 witness: the stable conforming implementation `argsort` discharges the
contract hypothesis; the theorem then yields both the ranking decomposition
at the concrete scores `[1, 2]`, `k = 1`, threshold `0` and the spec's
concrete four-candidate example. -/
theorem find_similar_topk_characterization_witness :
    (∀ vs : List ℚ, ArgsortSpec vs (argsort vs)) ∧
      ((∃ ranked : List (ℕ × ℚ),
          find_similar_from_scores argsort [1, 2] 1 0 = ranked.take 1 ∧
          List.Perm ranked
            (([1, 2] : List ℚ).enum.filter (fun p => (0 : ℚ) ≤ p.2)) ∧
          ranked.Pairwise (fun p q => q.2 ≤ p.2)) ∧
        find_similar_from_scores argsort [9/10, 3/10, 19/20, 1/10] 2 (1/2) =
          [(2, 19/20), (0, 9/10)]) :=
  ⟨argsort_isArgsort,
    find_similar_topk_characterization argsort argsort_isArgsort [1, 2] 1 0⟩

/-- Outcome of a successful `KMeans(...).fit_predict` call together with the
attributes read afterwards (`cluster_centers_`, `inertia_`). -/
structure KMeansOut where
  labels : List ℕ
  centers : List (List ℚ)
  inertia : ℚ
deriving DecidableEq

/-- Return value of `cluster_embeddings`: the dictionary of line 167-173 on
success, or the fallback dictionary of lines 177-183 when the `except`
branch runs. -/
structure ClusterResult where
  cluster_labels : List ℕ
  cluster_centers : List (List ℚ)
  clusters : List (ℕ × List ℕ)
  n_clusters : ℕ
  inertia : ℚ
deriving DecidableEq

/-- Grouping loop of lines 157-162: a dict from label to member indices, in
first-appearance insertion order. -/
def groupByLabel (labels : List ℕ) : List (ℕ × List ℕ) :=
  labels.enum.foldl
    (fun acc p =>
      if acc.any (fun q => q.1 == p.2) then
        acc.map (fun q => if q.1 == p.2 then (q.1, q.2 ++ [p.1]) else q)
      else acc ++ [(p.2, [p.1])])
    []

/-- `EmbeddingService.cluster_embeddings` (lines 140-183): clamp the cluster
count to the number of vectors, run `KMeans.fit_predict`, and assemble the
result dictionary; any exception inside the `try` is absorbed and the
degraded single-cluster fallback dictionary is returned.  The k-means
routine itself is external (scikit-learn) and is passed as the function
parameter `kmeans`, which may raise (`Except.error`). -/
def cluster_embeddings (kmeans : ℕ → List (List ℚ) → Except Unit KMeansOut)
    (embeddings : List (List ℚ)) (n_clusters : ℕ) : ClusterResult :=
  let n := if embeddings.length < n_clusters then embeddings.length else n_clusters
  match kmeans n embeddings with
  | .ok out =>
      { cluster_labels := out.labels
        cluster_centers := out.centers
        clusters := groupByLabel out.labels
        n_clusters := n
        inertia := out.inertia }
  | .error _ =>
      { cluster_labels := List.replicate embeddings.length 0
        cluster_centers := []
        clusters := [(0, List.range embeddings.length)]
        n_clusters := 1
        inertia := 0 }

/-- Modelled from scikit-learn's documented `KMeans` contract, used only to
instantiate closed statements: `fit_predict` raises `ValueError` when
`n_clusters` is zero or the sample matrix is empty, and otherwise returns
one label per sample (this stand-in labels everything 0).  The theorems
about `cluster_embeddings` quantify over every `kmeans` with the
raise-on-degenerate-input behavior. -/
def kmeansModel (k : ℕ) (xs : List (List ℚ)) : Except Unit KMeansOut :=
  if k = 0 ∨ xs = [] then .error ()
  else .ok ⟨List.replicate xs.length 0, List.replicate k [], 0⟩

/-- C3 (amended): `cluster_embeddings` on an empty vector list does NOT fail
with an error: the clamped cluster count is 0, the internal k-means call
raises, the `except` branch absorbs the exception, and the degraded fallback
dictionary (no labels, no centers, `n_clusters = 1`, inertia `0`) is
returned as a normal result.  (The original claim asserted an error
condition; the counterexample below refutes it.) -/
theorem cluster_embeddings_empty_fallback
    (kmeans : ℕ → List (List ℚ) → Except Unit KMeansOut) (n_clusters : ℕ)
    (hk : kmeans 0 [] = .error ()) :
    cluster_embeddings kmeans [] n_clusters =
      ⟨[], [], [(0, [])], 1, 0⟩ := by
  have hn : (if ([] : List (List ℚ)).length < n_clusters
      then ([] : List (List ℚ)).length else n_clusters) = 0 := by
    rcases Nat.eq_zero_or_pos n_clusters with h | h
    · simp [h]
    · simp [h]
  simp only [cluster_embeddings, hn, hk]
  rfl

/-- C3 witness: concrete instantiation with the modelled k-means on the
requested default of five clusters. -/
theorem cluster_embeddings_empty_fallback_witness :
    kmeansModel 0 [] = .error () ∧
      cluster_embeddings kmeansModel [] 5 = ⟨[], [], [(0, [])], 1, 0⟩ :=
  ⟨rfl, cluster_embeddings_empty_fallback kmeansModel 5 rfl⟩

/-- C3 counterexample: on the empty list the function returns the fallback
`ClusterResult` value — a normal result, not an error — so the claim that
the call `fails with an error rather than returning a result` is false at
this concrete input (the function is total and no error value exists in its
return type; the absorbed internal error surfaces only as the degraded
dictionary with `n_clusters = 1`). -/
theorem cluster_embeddings_empty_cex :
    cluster_embeddings kmeansModel [] 5 = ⟨[], [], [(0, [])], 1, 0⟩ := by
  rfl

/-- `EmbeddingService.reduce_dimensionality` (lines 185-204): run PCA
(`pca.fit_transform`, external scikit-learn, passed as the function
parameter `pca` applied to the requested component count) and return its
rows; if anything in the `try` raises, return freshly generated random 2-D
points, one per input vector (`np.random.randn` is modelled by the stream
`rng`, consumed two values per row). -/
def reduce_dimensionality (pca : ℕ → List (List ℚ) → Except Unit (List (List ℚ)))
    (rng : ℕ → ℚ) (embeddings : List (List ℚ)) (n_components : ℕ) :
    List (List ℚ) :=
  match pca n_components embeddings with
  | .ok reduced => reduced
  | .error _ =>
      (List.range embeddings.length).map (fun i => [rng (2 * i), rng (2 * i + 1)])

/-- C8: for every non-empty input, `reduce_dimensionality` returns exactly as
many points as input vectors: on the PCA path this follows from the
scikit-learn contract that `fit_transform` returns one row per sample (the
hypothesis `hpca`), and on the failure path the fallback generates exactly
`len(embeddings)` random points.  (The silent random fallback itself is the
spec's flagged open question; here it is exercised as-is.) -/
theorem reduce_dimensionality_length
    (pca : ℕ → List (List ℚ) → Except Unit (List (List ℚ))) (rng : ℕ → ℚ)
    (embeddings : List (List ℚ)) (n_components : ℕ)
    (hne : embeddings ≠ [])
    (hpca : ∀ out, pca n_components embeddings = .ok out →
      out.length = embeddings.length) :
    (reduce_dimensionality pca rng embeddings n_components).length =
      embeddings.length := by
  rcases hrun : pca n_components embeddings with e | out
  · simp [reduce_dimensionality, hrun]
  · simp [reduce_dimensionality, hrun, hpca out hrun]

/-- C8 witness: a failing projection on a two-vector input still yields two
fallback points. -/
theorem reduce_dimensionality_length_witness :
    ([[1], [2]] : List (List ℚ)) ≠ [] ∧
      (reduce_dimensionality (fun _ _ => .error ()) (fun _ => 0)
        [[1], [2]] 2).length = 2 :=
  ⟨by simp, reduce_dimensionality_length (fun _ _ => .error ()) (fun _ => 0)
    [[1], [2]] 2 (by simp) (fun out h => nomatch h)⟩

/-- Dot product of two rows, the scalar entry of the matrix product that
`sklearn.metrics.pairwise.cosine_similarity` computes after normalizing. -/
noncomputable def dotR (a b : List ℝ) : ℝ :=
  ((a.zip b).map (fun p => p.1 * p.2)).sum

/-- Sum of squared entries of a row. -/
noncomputable def sumSq (a : List ℝ) : ℝ :=
  (a.map (fun x => x * x)).sum

/-- Euclidean norm of a row (`np.linalg.norm`). -/
noncomputable def norm2 (a : List ℝ) : ℝ :=
  Real.sqrt (sumSq a)

open Classical in
/-- Row normalization as scikit-learn's `normalize` performs it inside
`cosine_similarity`: divide by the Euclidean norm, with zero norms replaced
by one to avoid division by zero (this replacement is what makes the zero
vector map to itself instead of producing NaN). -/
noncomputable def sklearn_normalize (v : List ℝ) : List ℝ :=
  let n := norm2 v
  let d := if n = 0 then 1 else n
  v.map (fun x => x / d)

/-- `EmbeddingService.calculate_similarity` (lines 96-107):
`cosine_similarity(vec1, vec2)[0][0]`, i.e. the dot product of the
normalized rows.  The `except` branch (shape errors and the like) returns
`0.0` and is not reachable for same-length numeric rows; the zero-norm case
goes through the normal path thanks to the zero-norm guard above. -/
noncomputable def calculate_similarity (a b : List ℝ) : ℝ :=
  dotR (sklearn_normalize a) (sklearn_normalize b)

theorem sumSq_nonneg (a : List ℝ) : 0 ≤ sumSq a := by
  refine List.sum_nonneg ?_
  intro x hx
  obtain ⟨y, _, rfl⟩ := List.mem_map.mp hx
  exact mul_self_nonneg y

theorem sumSq_eq_zero (a : List ℝ) (h : sumSq a = 0) : ∀ x ∈ a, x = 0 := by
  induction a with
  | nil => intro x hx; cases hx
  | cons y t ih =>
    have hcons : sumSq (y :: t) = y * y + sumSq t := by simp [sumSq]
    rw [hcons] at h
    have hy : y * y = 0 := by
      have h1 := mul_self_nonneg y
      have h2 := sumSq_nonneg t
      linarith
    have ht : sumSq t = 0 := by
      have h1 := mul_self_nonneg y
      have h2 := sumSq_nonneg t
      linarith
    intro x hx
    rcases List.mem_cons.mp hx with rfl | hx
    · exact mul_self_eq_zero.mp hy
    · exact ih ht x hx

theorem dotR_zero_of_zero (a b : List ℝ)
    (h : (∀ x ∈ a, x = 0) ∨ (∀ x ∈ b, x = 0)) : dotR a b = 0 := by
  refine List.sum_eq_zero ?_
  intro z hz
  obtain ⟨p, hp, rfl⟩ := List.mem_map.mp hz
  rcases h with h | h
  · rw [h p.1 (List.of_mem_zip hp).1, zero_mul]
  · rw [h p.2 (List.of_mem_zip hp).2, mul_zero]

theorem sklearn_normalize_zero_of (v : List ℝ) (h : ∀ x ∈ v, x = 0) :
    ∀ y ∈ sklearn_normalize v, y = 0 := by
  intro y hy
  obtain ⟨x, hx, rfl⟩ := List.mem_map.mp hy
  rw [h x hx, zero_div]

/-- C6: if either argument has zero Euclidean norm, `calculate_similarity`
returns exactly `0`: scikit-learn's normalize replaces the zero norm by one,
the zero row stays the zero row, and the dot product of a zero row with
anything is zero — no NaN and no exception arise (the model is a total
function into `ℝ`). -/
theorem calculate_similarity_zero_norm (a b : List ℝ)
    (h : norm2 a = 0 ∨ norm2 b = 0) : calculate_similarity a b = 0 := by
  rcases h with h | h
  · have hz : sumSq a = 0 := by
      have hle := Real.sqrt_eq_zero'.mp h
      linarith [sumSq_nonneg a]
    exact dotR_zero_of_zero _ _
      (Or.inl (sklearn_normalize_zero_of a (sumSq_eq_zero a hz)))
  · have hz : sumSq b = 0 := by
      have hle := Real.sqrt_eq_zero'.mp h
      linarith [sumSq_nonneg b]
    exact dotR_zero_of_zero _ _
      (Or.inr (sklearn_normalize_zero_of b (sumSq_eq_zero b hz)))

/-- C6 witness: the zero vector against `[3, 4]`. -/
theorem calculate_similarity_zero_norm_witness :
    (norm2 [(0 : ℝ), 0] = 0 ∨ norm2 [(3 : ℝ), 4] = 0) ∧
      calculate_similarity [(0 : ℝ), 0] [(3 : ℝ), 4] = 0 :=
  ⟨Or.inl (by simp [norm2, sumSq]),
    calculate_similarity_zero_norm [(0 : ℝ), 0] [(3 : ℝ), 4]
      (Or.inl (by simp [norm2, sumSq]))⟩

/-- The populated statistics dictionary of `get_embedding_stats`
(lines 255-277). -/
structure EmbeddingStats where
  count : ℕ
  dimension : ℕ
  mean_norm : ℝ
  std_norm : ℝ
  mean_values : List ℝ
  std_values : List ℝ
  mean_similarity : ℝ
  std_similarity : ℝ
  min_similarity : ℝ
  max_similarity : ℝ

/-- `np.mean` over a vector. -/
noncomputable def meanR (l : List ℝ) : ℝ := l.sum / l.length

/-- `np.std` over a vector (population standard deviation). -/
noncomputable def stdR (l : List ℝ) : ℝ :=
  Real.sqrt (meanR (l.map (fun x => (x - meanR l) * (x - meanR l))))

/-- The off-diagonal entries of the pairwise cosine-similarity matrix
(lines 264-270): row-major flattening of `cosine_similarity(matrix)` with
the diagonal masked out. -/
noncomputable def offDiagonalSims (es : List (List ℝ)) : List ℝ :=
  (List.range es.length).flatMap (fun i =>
    (List.range es.length).filterMap (fun j =>
      if i = j then none
      else some (calculate_similarity (es.getD i []) (es.getD j []))))

/-- `EmbeddingService.get_embedding_stats` (lines 247-283): `{}` (modelled as
`none`) on empty input; otherwise the stats record — unless the `try` body
raises, which happens exactly when the off-diagonal similarity list is empty
(`np.min` of a zero-size array raises `ValueError`), in which case the
`except` branch returns `{}` as well. -/
noncomputable def get_embedding_stats (es : List (List ℝ)) :
    Option EmbeddingStats :=
  if es.isEmpty then none
  else
    let offd := offDiagonalSims es
    if offd.isEmpty then none
    else some {
      count := es.length
      dimension := (es.headD []).length
      mean_norm := meanR (es.map norm2)
      std_norm := stdR (es.map norm2)
      mean_values := (List.range (es.headD []).length).map
        (fun j => meanR (es.map (fun v => v.getD j 0)))
      std_values := (List.range (es.headD []).length).map
        (fun j => stdR (es.map (fun v => v.getD j 0)))
      mean_similarity := meanR offd
      std_similarity := stdR offd
      min_similarity := offd.foldl min (offd.headD 0)
      max_similarity := offd.foldl max (offd.headD 0) }

/-- C9: on an empty vector list `get_embedding_stats` returns the empty
mapping (modelled as `none`) via the early `if not embeddings` branch; the
model is a total function, so no error is raised. -/
theorem get_embedding_stats_empty : get_embedding_stats [] = none := rfl

/-- C10: on a single vector the off-diagonal similarity set is empty, so
`np.min` raises inside the `try` and the `except` branch returns the same
empty mapping as for zero vectors — never a populated stats record. -/
theorem get_embedding_stats_singleton (v : List ℝ) :
    get_embedding_stats [v] = none := by
  have hoff : offDiagonalSims [v] = [] := by
    simp [offDiagonalSims]
  simp [get_embedding_stats, hoff]

end MindMesh
